import Mathlib

/-!
# Verification of the IntellektAI PDF → MCQ pipeline (src/pdf_to_mcq.py)

Shallow embedding of the pure pipeline logic of the single source file.
Python strings are embedded as `List Char`; Python exceptions are embedded
as `Option`/`Except` results; the external inference call, the JSON
deserializer and the PDF page-text extractor are black-box parameters.
-/

/-! ## Chunker: split_text_into_chunks (source lines 97-98) -/

/-- Embeds `split_text_into_chunks(text, size)`, i.e. the comprehension
`[text[i:i+size] for i in range(0, len(text), size)]`.  For `0 < size`,
`range(0, L, size)` enumerates the `(L + size - 1) / size` indices
`0, size, 2*size, ...`, and the slice `text[i:i+size]` is
`(text.drop i).take size`. -/
def split_text_into_chunks (text : List Char) (size : Nat) : List (List Char) :=
  (List.range' 0 ((text.length + size - 1) / size) size).map
    (fun i => (text.drop i).take size)

/-- Recursive reformulation of the chunker, used to reason by induction.
`split_eq_chunksRec` proves it equal to `split_text_into_chunks`. -/
def chunksRec (size : Nat) : List Char → List (List Char)
  | [] => []
  | c :: rest =>
    if hsz : size = 0 then []
    else (c :: rest).take size :: chunksRec size ((c :: rest).drop size)
termination_by l => l.length
decreasing_by
  simp only [List.length_drop, List.length_cons]
  omega

lemma range'_add_shift (size : Nat) : ∀ (n a b : Nat),
    List.range' (a + b) n size = (List.range' b n size).map (a + ·) := by
  intro n
  induction n with
  | zero => intro a b; rfl
  | succ n ih =>
      intro a b
      rw [List.range'_succ, List.range'_succ, List.map_cons]
      refine congrArg₂ _ rfl ?_
      have hab : a + b + size = a + (b + size) := by omega
      rw [hab, ih a (b + size)]

lemma split_eq_chunksRec (size : Nat) (hs : 0 < size) (text : List Char) :
    split_text_into_chunks text size = chunksRec size text := by
  generalize hn : text.length = n
  induction n using Nat.strong_induction_on generalizing text with
  | _ n ih =>
    cases text with
    | nil =>
        have h0 : (([] : List Char).length + size - 1) / size = 0 :=
          Nat.div_eq_of_lt (by simp only [List.length_nil]; omega)
        rw [split_text_into_chunks, h0, chunksRec]
        rfl
    | cons c rest =>
        have hsz : ¬ size = 0 := by omega
        rw [chunksRec, dif_neg hsz]
        by_cases hle : (c :: rest).length ≤ size
        · have hdrop : (c :: rest).drop size = [] := List.drop_eq_nil_of_le hle
          rw [hdrop, chunksRec]
          have hlen : 0 < (c :: rest).length := by simp
          have hcnt : ((c :: rest).length + size - 1) / size = 1 := by
            apply Nat.div_eq_of_lt_le
            · omega
            · omega
          rw [split_text_into_chunks, hcnt]
          simp [List.range'_succ]
        · have hlt : size < (c :: rest).length := by omega
          have hcnt : ((c :: rest).length + size - 1) / size =
              (((c :: rest).drop size).length + size - 1) / size + 1 := by
            rw [List.length_drop]
            have hsplit : (c :: rest).length + size - 1 =
                ((c :: rest).length - size + size - 1) + size := by omega
            rw [hsplit, Nat.add_div_right _ hs]
          rw [split_text_into_chunks, hcnt, List.range'_succ, List.map_cons,
            List.drop_zero]
          refine congrArg₂ _ rfl ?_
          have hshift : List.range' (0 + size)
                ((((c :: rest).drop size).length + size - 1) / size) size =
              (List.range' 0 ((((c :: rest).drop size).length + size - 1) / size)
                size).map (size + ·) := by
            rw [Nat.zero_add]
            have hsh := range'_add_shift size
              ((((c :: rest).drop size).length + size - 1) / size) size 0
            simpa using hsh
          rw [hshift, List.map_map]
          have hmapeq : ∀ i,
              ((fun i => ((c :: rest).drop i).take size) ∘ (size + ·)) i =
              (fun i => (((c :: rest).drop size).drop i).take size) i := by
            intro i
            simp only [Function.comp_apply, List.drop_drop]
          rw [List.map_congr_left (fun i _ => hmapeq i)]
          have hrec : (List.range' 0
                ((((c :: rest).drop size).length + size - 1) / size) size).map
                (fun i => (((c :: rest).drop size).drop i).take size) =
              split_text_into_chunks ((c :: rest).drop size) size := rfl
          rw [hrec]
          exact ih (((c :: rest).drop size).length)
            (by rw [List.length_drop]; omega) _ rfl

lemma chunksRec_flatten (size : Nat) (hs : 0 < size) (text : List Char) :
    (chunksRec size text).flatten = text := by
  generalize hn : text.length = n
  induction n using Nat.strong_induction_on generalizing text with
  | _ n ih =>
    cases text with
    | nil => rw [chunksRec]; rfl
    | cons c rest =>
        have hih : (chunksRec size ((c :: rest).drop size)).flatten =
            (c :: rest).drop size := by
          refine ih (((c :: rest).drop size).length) ?_ _ rfl
          have hpos : (c :: rest).length = rest.length + 1 := List.length_cons c rest
          rw [List.length_drop]
          omega
        rw [chunksRec, dif_neg (by omega : ¬ size = 0), List.flatten_cons, hih,
          List.take_append_drop]

lemma chunksRec_cons_shape (size : Nat) (hs : 0 < size) (c : Char) (rest : List Char) :
    ∃ d ds, chunksRec size (c :: rest) = d :: ds := by
  rw [chunksRec, dif_neg (by omega : ¬ size = 0)]
  exact ⟨_, _, rfl⟩

lemma chunksRec_dropLast (size : Nat) (hs : 0 < size) (text : List Char) :
    ∀ ch ∈ (chunksRec size text).dropLast, ch.length = size := by
  generalize hn : text.length = n
  induction n using Nat.strong_induction_on generalizing text with
  | _ n ih =>
    cases text with
    | nil =>
        intro ch hch
        rw [chunksRec] at hch
        simp at hch
    | cons c rest =>
        intro ch hch
        rw [chunksRec, dif_neg (by omega : ¬ size = 0)] at hch
        by_cases hd : (c :: rest).drop size = []
        · rw [hd, chunksRec] at hch
          simp at hch
        · have hlt : size < (c :: rest).length := by
            by_contra hcon
            exact hd (List.drop_eq_nil_of_le (by omega))
          cases hdrop2 : (c :: rest).drop size with
          | nil => exact absurd hdrop2 hd
          | cons x xs =>
              obtain ⟨d, ds, hds⟩ := chunksRec_cons_shape size hs x xs
              rw [hdrop2, hds, List.dropLast_cons₂, List.mem_cons] at hch
              rcases hch with hch | hch
              · rw [hch, List.length_take]
                exact Nat.min_eq_left (Nat.le_of_lt hlt)
              · refine ih (((c :: rest).drop size).length)
                  (by rw [List.length_drop]; omega)
                  ((c :: rest).drop size) rfl ch ?_
                rw [hdrop2, hds]
                exact hch

lemma chunksRec_getLast? (size : Nat) (hs : 0 < size) (text : List Char) :
    ∀ ch, (chunksRec size text).getLast? = some ch →
      1 ≤ ch.length ∧ ch.length ≤ size := by
  generalize hn : text.length = n
  induction n using Nat.strong_induction_on generalizing text with
  | _ n ih =>
    cases text with
    | nil =>
        intro ch hch
        rw [chunksRec] at hch
        simp at hch
    | cons c rest =>
        intro ch hch
        rw [chunksRec, dif_neg (by omega : ¬ size = 0)] at hch
        by_cases hd : (c :: rest).drop size = []
        · rw [hd, chunksRec] at hch
          simp only [List.getLast?_singleton, Option.some_inj] at hch
          subst hch
          rw [List.length_take]
          constructor
          · refine Nat.le_min.mpr ⟨hs, ?_⟩
            simp
          · exact Nat.min_le_left _ _
        · cases hdrop2 : (c :: rest).drop size with
          | nil => exact absurd hdrop2 hd
          | cons x xs =>
              obtain ⟨d, ds, hds⟩ := chunksRec_cons_shape size hs x xs
              rw [hdrop2, hds, List.getLast?_cons_cons] at hch
              have hpos : (c :: rest).length = rest.length + 1 :=
                List.length_cons c rest
              refine ih (((c :: rest).drop size).length)
                (by rw [List.length_drop]; omega)
                ((c :: rest).drop size) rfl ch ?_
              rw [hdrop2, hds]
              exact hch

/-- C1: for every string and positive chunk size, concatenating the chunks of
`split_text_into_chunks` reproduces the input exactly; every chunk except
possibly the last has length exactly `size`; the last chunk has length
between 1 and `size`; and the empty string yields the empty sequence. -/
theorem split_text_into_chunks_spec (text : List Char) (size : Nat)
    (hs : 0 < size) :
    (split_text_into_chunks text size).flatten = text
    ∧ (∀ ch ∈ (split_text_into_chunks text size).dropLast, ch.length = size)
    ∧ (∀ ch, (split_text_into_chunks text size).getLast? = some ch →
        1 ≤ ch.length ∧ ch.length ≤ size)
    ∧ split_text_into_chunks [] size = [] := by
  rw [split_eq_chunksRec size hs text, split_eq_chunksRec size hs []]
  exact ⟨chunksRec_flatten size hs text, chunksRec_dropLast size hs text,
    chunksRec_getLast? size hs text, by rw [chunksRec]⟩

/-- Witness for C1 at `text = "abcdefgh"`, `size = 3` (Scenario C of the spec:
chunks are "abc", "def", "gh"). -/
theorem split_text_into_chunks_spec_witness :
    0 < 3
    ∧ ((split_text_into_chunks ("abcdefgh".toList) 3).flatten = "abcdefgh".toList
      ∧ (∀ ch ∈ (split_text_into_chunks ("abcdefgh".toList) 3).dropLast,
          ch.length = 3)
      ∧ (∀ ch, (split_text_into_chunks ("abcdefgh".toList) 3).getLast? = some ch →
          1 ≤ ch.length ∧ ch.length ≤ 3)
      ∧ split_text_into_chunks [] 3 = []) :=
  ⟨by decide, split_text_into_chunks_spec ("abcdefgh".toList) 3 (by decide)⟩

/-! ## Page Selector: parse_page_range (source lines 82-95)

Python `int(str)` is modelled on ASCII inputs: surrounding whitespace is
stripped, an optional single sign is allowed, then one or more decimal
digits with single underscores permitted between digits.  A failing parse
is `none`, modelling the `ValueError` that the source catches. -/

def isPySpace (c : Char) : Bool :=
  c = ' ' || c = '\t' || c = '\n' || c = '\r' || c = '\x0b' || c = '\x0c'

/-- Python `str.strip()` (ASCII whitespace). -/
def pyStrip (s : List Char) : List Char :=
  ((s.dropWhile isPySpace).reverse.dropWhile isPySpace).reverse

def digitVal (c : Char) : Option Nat :=
  if '0' ≤ c ∧ c ≤ '9' then some (c.toNat - 48) else none

/-- Digits after the first one; a single `_` may separate two digits. -/
def digitsLoop (acc : Nat) : List Char → Option Nat
  | [] => some acc
  | '_' :: [] => none
  | '_' :: c :: rest =>
      match digitVal c with
      | some d => digitsLoop (acc * 10 + d) rest
      | none => none
  | c :: rest =>
      match digitVal c with
      | some d => digitsLoop (acc * 10 + d) rest
      | none => none

def parseUDigits : List Char → Option Nat
  | [] => none
  | c :: rest =>
      match digitVal c with
      | some d => digitsLoop d rest
      | none => none

/-- Python `int(s)` for a string `s`; `none` models `ValueError`. -/
def pyInt (s : List Char) : Option Int :=
  match pyStrip s with
  | '+' :: rest => (parseUDigits rest).map Int.ofNat
  | '-' :: rest => (parseUDigits rest).map (fun m => -(m : Int))
  | t => (parseUDigits t).map Int.ofNat

/-- Python `s.split(sep)` for a one-character separator: empty parts are
kept, and the empty string yields one empty part. -/
def splitOnChar (sep : Char) : List Char → List (List Char)
  | [] => [[]]
  | c :: rest =>
      match splitOnChar sep rest with
      | [] => [[]]
      | g :: gs => if c = sep then [] :: g :: gs else (c :: g) :: gs

/-- Python `range(lo, hi)` over integers: `lo, lo+1, ..., hi-1`. -/
def rangeInt (lo hi : Int) : List Int :=
  (List.range (hi - lo).toNat).map (fun k => lo + k)

/-- One comma-separated part of the page-range expression (loop body,
source lines 87-92).  A part containing a dash must split into exactly two
integers `start`, `end` and contributes `range(start-1, end)`; otherwise the
part must be one integer `p` and contributes `[p-1]`.  `none` models the
exception that makes the enclosing `try` discard the whole expression. -/
def parsePart (part : List Char) : Option (List Int) :=
  if part.contains '-' then
    match splitOnChar '-' part with
    | [a, b] =>
        match pyInt a, pyInt b with
        | some s, some e => some (rangeInt (s - 1) e)
        | _, _ => none
    | _ => none
  else
    (pyInt part).map (fun p => [p - 1])

/-- All parts of the expression; any failing part discards everything
(the source catches the exception outside the `for` loop). -/
def parseParts : List (List Char) → Option (List Int)
  | [] => some []
  | p :: ps =>
      match parsePart p, parseParts ps with
      | some l, some ls => some (l ++ ls)
      | _, _ => none

/-- `list(range(total_pages))` as integers. -/
def allPages (total : Nat) : List Int :=
  (List.range total).map Int.ofNat

/-- Embeds `parse_page_range(page_range_str, total_pages)`: empty expression
or any parse failure yields all pages; otherwise the collected indices are
filtered to `[0, total_pages)` and returned as a sorted deduplicated list
(`sorted` over the Python `set`). -/
def parse_page_range (s : List Char) (total : Nat) : List Int :=
  if s = [] then allPages total
  else
    match parseParts (splitOnChar ',' s) with
    | none => allPages total
    | some pages =>
        List.insertionSort (· ≤ ·)
          ((pages.filter (fun p => decide (0 ≤ p) && decide (p < (total : Int)))).dedup)

/-- C2: a malformed range expression (any part failing to parse) makes
`parse_page_range` discard the whole expression and return exactly what the
empty expression returns, i.e. all pages.  Totality of `parse_page_range`
(no escaping exception) holds by construction of the embedding. -/
theorem parse_page_range_malformed_fallback (s : List Char) (total : Nat)
    (hmal : parseParts (splitOnChar ',' s) = none) :
    parse_page_range s total = parse_page_range [] total := by
  have h2 : parse_page_range [] total = allPages total := by
    rw [parse_page_range, if_pos rfl]
  by_cases hs : s = []
  · rw [hs]
  · rw [h2, parse_page_range, if_neg hs, hmal]

/-- Witness for C2 at the malformed expression "abc" with 5 pages
(Scenario B of the spec). -/
theorem parse_page_range_malformed_fallback_witness :
    parseParts (splitOnChar ',' ("abc".toList)) = none
    ∧ parse_page_range ("abc".toList) 5 = parse_page_range [] 5 :=
  ⟨by decide, parse_page_range_malformed_fallback ("abc".toList) 5 (by decide)⟩

lemma allPages_spec (total : Nat) :
    List.Pairwise (· < ·) (allPages total)
    ∧ ∀ p ∈ allPages total, 0 ≤ p ∧ p < (total : Int) := by
  constructor
  · rw [allPages, List.pairwise_map]
    exact (List.pairwise_lt_range total).imp (fun h => Int.ofNat_lt.mpr h)
  · intro p hp
    rw [allPages, List.mem_map] at hp
    obtain ⟨m, hm, rfl⟩ := hp
    rw [List.mem_range] at hm
    exact ⟨Int.ofNat_nonneg m, Int.ofNat_lt.mpr hm⟩

lemma sortedSet_spec (pages : List Int) (total : Nat) :
    List.Pairwise (· < ·)
      (List.insertionSort (· ≤ ·)
        ((pages.filter (fun p => decide (0 ≤ p) && decide (p < (total : Int)))).dedup))
    ∧ ∀ p ∈ List.insertionSort (· ≤ ·)
        ((pages.filter (fun p => decide (0 ≤ p) && decide (p < (total : Int)))).dedup),
      0 ≤ p ∧ p < (total : Int) := by
  have hperm := List.perm_insertionSort (· ≤ ·)
    ((pages.filter (fun p => decide (0 ≤ p) && decide (p < (total : Int)))).dedup)
  constructor
  · have hsorted := List.sorted_insertionSort (· ≤ ·)
      ((pages.filter (fun p => decide (0 ≤ p) && decide (p < (total : Int)))).dedup)
    have hnodup : (List.insertionSort (· ≤ ·)
        ((pages.filter (fun p => decide (0 ≤ p) && decide (p < (total : Int)))).dedup)).Nodup :=
      (List.nodup_dedup _).perm hperm.symm
    exact (List.Pairwise.and hsorted hnodup).imp
      (fun hab => lt_of_le_of_ne hab.1 hab.2)
  · intro p hp
    have hp2 := (hperm.mem_iff).mp hp
    rw [List.mem_dedup, List.mem_filter] at hp2
    have := hp2.2
    simp only [Bool.and_eq_true, decide_eq_true_eq] at this
    exact this

/-- C3: for every expression and page count, `parse_page_range` returns a
strictly increasing (hence duplicate-free) list of indices in
`[0, total_pages)`; and concretely `parse_page_range("1-3,5", 10)` is
`[0, 1, 2, 4]` (Scenario A of the spec). -/
theorem parse_page_range_sorted_bounded (s : List Char) (total : Nat) :
    List.Pairwise (· < ·) (parse_page_range s total)
    ∧ (∀ p ∈ parse_page_range s total, 0 ≤ p ∧ p < (total : Int))
    ∧ parse_page_range ("1-3,5".toList) 10 = [0, 1, 2, 4] := by
  refine ⟨?_, ?_, by decide⟩ <;>
  · rw [parse_page_range]
    by_cases hs : s = []
    · rw [if_pos hs]
      first
      | exact (allPages_spec total).1
      | exact (allPages_spec total).2
    · rw [if_neg hs]
      cases hp : parseParts (splitOnChar ',' s) with
      | none =>
          first
          | exact (allPages_spec total).1
          | exact (allPages_spec total).2
      | some pages =>
          first
          | exact (sortedSet_spec pages total).1
          | exact (sortedSet_spec pages total).2

lemma splitOnChar_of_not_contains (sep : Char) (l : List Char)
    (h : l.contains sep = false) : splitOnChar sep l = [l] := by
  induction l with
  | nil => rfl
  | cons c rest ih =>
      rw [List.contains_cons, Bool.or_eq_false_iff, beq_eq_false_iff_ne] at h
      simp only [splitOnChar, ih h.2]
      rw [if_neg (Ne.symm h.1)]

/-- C10: a well-formed range part `start-end` whose endpoints are integers
with `start > end` contributes no page indices at all: it parses to the
empty contribution (no exception, no fallback, no reversed range), and the
other parts of the expression still contribute; concretely
`parse_page_range("5-2,3", 10)` is `[2]`. -/
theorem parsePart_reversed_range_empty (part a b : List Char) (s e : Int)
    (hsplit : splitOnChar '-' part = [a, b])
    (hsa : pyInt a = some s) (hsb : pyInt b = some e) (hlt : e < s) :
    parsePart part = some []
    ∧ parse_page_range ("5-2,3".toList) 10 = [2] := by
  refine ⟨?_, by decide⟩
  have hcont : part.contains '-' = true := by
    by_contra hcon
    rw [Bool.not_eq_true] at hcon
    rw [splitOnChar_of_not_contains '-' part hcon] at hsplit
    exact absurd hsplit (by simp)
  have hempty : rangeInt (s - 1) e = [] := by
    rw [rangeInt]
    have htn : (e - (s - 1)).toNat = 0 := by omega
    rw [htn]
    rfl
  rw [parsePart, if_pos hcont]
  simp only [hsplit, hsa, hsb, hempty]

/-- Witness for C10 at the part "5-2" inside the expression "5-2,3". -/
theorem parsePart_reversed_range_empty_witness :
    splitOnChar '-' ("5-2".toList) = ["5".toList, "2".toList]
    ∧ pyInt ("5".toList) = some 5 ∧ pyInt ("2".toList) = some 2 ∧ (2 : Int) < 5
    ∧ (parsePart ("5-2".toList) = some []
      ∧ parse_page_range ("5-2,3".toList) 10 = [2]) :=
  ⟨by decide, by decide, by decide, by decide,
    parsePart_reversed_range_empty ("5-2".toList) ("5".toList) ("2".toList) 5 2
      (by decide) (by decide) (by decide) (by decide)⟩

/-! ## Question records and the MCQ Generator: hf_generate_mcqs (lines 38-80) -/

/-- A question record as deserialized from the model JSON output.  Each of
the three expected keys may be absent; every read in the source goes
through `dict.get` with a default. -/
structure MCQRecord where
  question : Option (List Char)
  options : Option (List (List Char))
  correct_option : Option Int
deriving DecidableEq

/-- Whether `re.search(r"\x5b.*\x5d", s, re.DOTALL)` matches: there is a
`[` with some `]` strictly after it, i.e. the first `[` lies before the
last `]`. -/
def hasArrayMatch (s : List Char) : Bool :=
  decide (s.findIdx (· == '[') < s.length)
  && decide (s.reverse.findIdx (· == ']') < s.length)
  && decide (s.findIdx (· == '[') < s.length - 1 - s.reverse.findIdx (· == ']'))

/-- The candidate JSON payload (lines 73-74): the greedy DOTALL match of
`\x5b.*\x5d` runs from the first `[` to the last `]` of the whole
response; when there is no match the payload is the literal "[]". -/
def extractJsonStr (s : List Char) : List Char :=
  if hasArrayMatch s then
    (s.drop (s.findIdx (· == '['))).take
      (s.length - 1 - s.reverse.findIdx (· == ']') - s.findIdx (· == '[') + 1)
  else ['[', ']']

/-- Embeds `hf_generate_mcqs`.  The external chat-completion call is the
black-box argument `callResult` (`Except.error` = the exception the call
raised; the `Option` is the possibly-`None` message content, defaulted to
"" by `or ""`), and `json.loads` is the black-box argument `jsonLoads`
(`Except.error` = the exception it raised).  The result pairs the returned
record list with the messages sent to the error channel (`st.error`);
both failure shapes are caught by the one `try`. -/
def hf_generate_mcqs (callResult : Except (List Char) (Option (List Char)))
    (jsonLoads : List Char → Except (List Char) (List MCQRecord)) :
    List MCQRecord × List (List Char) :=
  match callResult with
  | Except.error e => ([], [e])
  | Except.ok content =>
      match jsonLoads (extractJsonStr (content.getD [])) with
      | Except.error e => ([], [e])
      | Except.ok recs => (recs, [])

lemma hasArrayMatch_iff (s : List Char) :
    hasArrayMatch s = true ↔
      ∃ i j, i < j ∧ j < s.length ∧ s[i]? = some '[' ∧ s[j]? = some ']' := by
  rw [hasArrayMatch]
  simp only [Bool.and_eq_true, decide_eq_true_eq]
  constructor
  · rintro ⟨⟨hfi, hjr⟩, hlt⟩
    refine ⟨s.findIdx (· == '['), s.length - 1 - s.reverse.findIdx (· == ']'),
      hlt, by omega, ?_, ?_⟩
    · rw [List.getElem?_eq_getElem hfi]
      have hopen := @List.findIdx_getElem _ _ _ hfi
      simpa using hopen
    · have hjr2 : s.reverse.findIdx (· == ']') < s.reverse.length := by
        rw [List.length_reverse]; exact hjr
      have hclose := @List.findIdx_getElem _ _ _ hjr2
      rw [List.getElem_reverse] at hclose
      rw [List.getElem?_eq_getElem (by omega)]
      simpa using hclose
  · rintro ⟨i, j, hij, hj, hopen, hclose⟩
    have hi : i < s.length := by omega
    have hjlen : j < s.length := hj
    rw [List.getElem?_eq_getElem hi, Option.some_inj] at hopen
    rw [List.getElem?_eq_getElem hjlen, Option.some_inj] at hclose
    have hfile : s.findIdx (· == '[') ≤ i := by
      by_contra hcon
      have := @List.not_of_lt_findIdx _ (· == '[') s i (by omega)
      simp [hopen] at this
    have hfi : s.findIdx (· == '[') < s.length := by omega
    have hrevj : s.reverse.findIdx (· == ']') ≤ s.length - 1 - j := by
      by_contra hcon
      have hj2 : s.length - 1 - j < s.reverse.length := by
        rw [List.length_reverse]; omega
      have := @List.not_of_lt_findIdx _ (· == ']') s.reverse
        (s.length - 1 - j) (by omega)
      rw [List.getElem_reverse] at this
      have hjj : s.length - 1 - (s.length - 1 - j) = j := by omega
      simp only [hjj] at this
      simp [hclose] at this
    have hjr : s.reverse.findIdx (· == ']') < s.length := by omega
    exact ⟨⟨hfi, hjr⟩, by omega⟩

lemma extractJsonStr_of_no_match (s : List Char) (h : hasArrayMatch s = false) :
    extractJsonStr s = ['[', ']'] := by
  rw [extractJsonStr, if_neg (by simp [h])]

/-- C4: the MCQ Generator never lets an exception escape: a raising
inference call or a raising deserialization is caught, reported on the
error channel and turned into the empty record list; and a response with
no `[` ... `]` substring (formalized exactly by the last conjunct) uses
the payload "[]" and yields the empty list with nothing on the error
channel.  Totality of `hf_generate_mcqs` models the no-escape boundary. -/
theorem hf_generate_mcqs_error_handling
    (callResult : Except (List Char) (Option (List Char)))
    (jsonLoads : List Char → Except (List Char) (List MCQRecord))
    (hjl : jsonLoads ['[', ']'] = Except.ok []) :
    (∀ e, callResult = Except.error e →
      hf_generate_mcqs callResult jsonLoads = ([], [e]))
    ∧ (∀ content e, callResult = Except.ok content →
        jsonLoads (extractJsonStr (content.getD [])) = Except.error e →
        hf_generate_mcqs callResult jsonLoads = ([], [e]))
    ∧ (∀ content, callResult = Except.ok content →
        hasArrayMatch (content.getD []) = false →
        hf_generate_mcqs callResult jsonLoads = ([], []))
    ∧ (∀ s : List Char, hasArrayMatch s = true ↔
        ∃ i j, i < j ∧ j < s.length ∧ s[i]? = some '[' ∧ s[j]? = some ']') := by
  refine ⟨?_, ?_, ?_, hasArrayMatch_iff⟩
  · rintro e rfl
    rfl
  · rintro content e rfl hload
    rw [hf_generate_mcqs, hload]
  · rintro content rfl hnone
    rw [hf_generate_mcqs, extractJsonStr_of_no_match _ hnone, hjl]

/-- A concrete stand-in for `json.loads` that succeeds exactly on the
empty-array literal, used to witness C4. -/
def jlScenario : List Char → Except (List Char) (List MCQRecord) :=
  fun s => if s = ['[', ']'] then Except.ok [] else Except.error s

/-- Witness for C4 (Scenario D): a response with no bracketed substring
yields `([], [])` — empty record list, nothing on the error channel. -/
theorem hf_generate_mcqs_error_handling_witness :
    jlScenario ['[', ']'] = Except.ok []
    ∧ hf_generate_mcqs (Except.ok (some ("no json here".toList))) jlScenario
        = ([], []) :=
  ⟨rfl,
    (hf_generate_mcqs_error_handling
        (Except.ok (some ("no json here".toList))) jlScenario rfl).2.2.1
      (some ("no json here".toList)) rfl (by decide)⟩

/-! ## Generation Orchestrator: the generate loop (lines 125-133) -/

/-- Observable events of one generation run: a progress-bar update
`progress.progress(num / den)` — the fraction is recorded by its numerator
(the 1-based loop index `idx`) and denominator (`len(chunks)`) — and the
completion of the generator call for the given 1-based chunk index. -/
inductive OEvent where
  | progressEv (num den : Nat)
  | callEv (idx : Nat)
deriving DecidableEq

/-- The loop body of `for idx, chunk in enumerate(chunks, 1):` at loop
index `idx`: first `progress.progress(idx / len(chunks))`, then the
generator call for this chunk, then `all_mcqs.extend(mcqs)`. -/
def orchLoop (gen : List Char → List MCQRecord) (den : Nat) (idx : Nat) :
    List (List Char) → List MCQRecord × List OEvent
  | [] => ([], [])
  | chunk :: rest =>
      let next := orchLoop gen den (idx + 1) rest
      (gen chunk ++ next.1,
        OEvent.progressEv idx den :: OEvent.callEv idx :: next.2)

/-- Embeds the whole generation loop over the chunk list, producing the
aggregated `all_mcqs` and the ordered event trace. -/
def orchestrate (gen : List Char → List MCQRecord)
    (chunks : List (List Char)) : List MCQRecord × List OEvent :=
  orchLoop gen chunks.length 1 chunks

lemma orchLoop_fst (gen : List Char → List MCQRecord) (den : Nat) :
    ∀ (cs : List (List Char)) (idx : Nat),
      (orchLoop gen den idx cs).1 = cs.flatMap gen := by
  intro cs
  induction cs with
  | nil => intro idx; rfl
  | cons c rest ih =>
      intro idx
      rw [orchLoop, List.flatMap_cons]
      simp only [ih (idx + 1)]

lemma orchLoop_snd (gen : List Char → List MCQRecord) (den : Nat) :
    ∀ (cs : List (List Char)) (idx : Nat),
      (orchLoop gen den idx cs).2 =
        (List.range cs.length).flatMap
          (fun k => [OEvent.progressEv (idx + k) den, OEvent.callEv (idx + k)]) := by
  intro cs
  induction cs with
  | nil => intro idx; rfl
  | cons c rest ih =>
      intro idx
      rw [orchLoop]
      simp only [List.length_cons, List.range_succ_eq_map, List.flatMap_cons,
        List.flatMap_map, ih (idx + 1)]
      simp only [Nat.add_zero, List.cons_append, List.nil_append]
      refine congrArg₂ _ rfl (congrArg₂ _ rfl ?_)
      apply List.flatMap_congr
      intro x hx
      have hx2 : idx + 1 + x = idx + x.succ := by omega
      rw [hx2]

/-- C5: the orchestrator result is the concatenation of each chunk's
generator output, in chunk order; a chunk whose generator call failed
contributes its `[]` and does not abort the run — with three chunks where
chunk 2 fails, the result is chunk 1's records then chunk 3's records
(Scenario E) — and when there are chunks at all, the trace contains the
progress update n/n, i.e. the bar reaches 100%. -/
theorem orchestrate_spec (gen : List Char → List MCQRecord)
    (chunks : List (List Char)) (c1 c2 c3 : List Char) (h2 : gen c2 = []) :
    (orchestrate gen chunks).1 = chunks.flatMap gen
    ∧ (orchestrate gen [c1, c2, c3]).1 = gen c1 ++ gen c3
    ∧ (chunks ≠ [] →
        OEvent.progressEv chunks.length chunks.length ∈ (orchestrate gen chunks).2) := by
  refine ⟨orchLoop_fst gen chunks.length chunks 1, ?_, ?_⟩
  · rw [orchestrate, orchLoop_fst]
    simp [h2]
  · intro hne
    have hpos : 0 < chunks.length := List.length_pos.mpr hne
    rw [orchestrate, orchLoop_snd, List.mem_flatMap]
    refine ⟨chunks.length - 1, ?_, ?_⟩
    · rw [List.mem_range]
      omega
    · have h1 : 1 + (chunks.length - 1) = chunks.length := by omega
      rw [h1]
      simp

/-- A concrete generator for the C5 witness: chunk "2" fails (yields no
records), other chunks yield one record each. -/
def genScenario : List Char → List MCQRecord :=
  fun c => if c = ['2'] then [] else [⟨some c, none, none⟩]

/-- Witness for C5 (Scenario E) over the three chunks "1", "2", "3". -/
theorem orchestrate_spec_witness :
    genScenario ['2'] = []
    ∧ ((orchestrate genScenario [['1'], ['2'], ['3']]).1 =
          [['1'], ['2'], ['3']].flatMap genScenario
      ∧ (orchestrate genScenario [['1'], ['2'], ['3']]).1 =
          genScenario ['1'] ++ genScenario ['3']
      ∧ ([['1'], ['2'], ['3']] ≠ ([] : List (List Char)) →
          OEvent.progressEv 3 3 ∈ (orchestrate genScenario [['1'], ['2'], ['3']]).2)) :=
  ⟨rfl, orchestrate_spec genScenario [['1'], ['2'], ['3']] ['1'] ['2'] ['3'] rfl⟩

/-- The temporal property asserted by C9: each progress emission with
numerator k occurs strictly after the k-th generator call completed. -/
def progressAfterCall (gen : List Char → List MCQRecord)
    (chunks : List (List Char)) : Prop :=
  ∀ k, 1 ≤ k → k ≤ chunks.length →
    (orchestrate gen chunks).2.indexOf (OEvent.callEv k) <
    (orchestrate gen chunks).2.indexOf (OEvent.progressEv k chunks.length)

/-- C9 counterexample: already with a single chunk, the progress update
1/1 is emitted before the generator call for chunk 1, not after it — the
source updates the bar at the top of the loop body, before
`hf_generate_mcqs` runs. -/
theorem orchestrate_progress_counterexample :
    ¬ progressAfterCall (fun _ => []) [['a']] := by
  intro h
  have h1 := h 1 (by decide) (by decide)
  revert h1
  decide

/-- C9 amended: the k-th progress emission does carry the fraction k/n
(numerator k, denominator n = number of chunks) but occurs immediately
BEFORE the k-th generator call, i.e. after only k-1 chunks have completed:
the trace is progress 1/n, call 1, progress 2/n, call 2, ..., progress
n/n, call n. -/
theorem orchestrate_events_spec (gen : List Char → List MCQRecord)
    (chunks : List (List Char)) :
    (orchestrate gen chunks).2 =
      (List.range chunks.length).flatMap
        (fun k => [OEvent.progressEv (k + 1) chunks.length,
          OEvent.callEv (k + 1)]) := by
  rw [orchestrate, orchLoop_snd]
  apply List.flatMap_congr
  intro x hx
  rw [Nat.add_comm 1 x]

/-! ## MCQ Store search (tab 2, lines 163-168) -/

/-- Python `str.lower()`; the source data is ASCII, where it coincides
with `Char.toLower` per character. -/
def pyLower (s : List Char) : List Char := s.map Char.toLower

/-- Whether `hay` starts with `needle`. -/
def startsWithL : List Char → List Char → Bool
  | [], _ => true
  | _ :: _, [] => false
  | a :: as, b :: bs => a == b && startsWithL as bs

/-- Python `needle in hay` on strings: contiguous substring test (the
empty needle is contained in everything). -/
def containsSub (needle : List Char) : List Char → Bool
  | [] => needle.isEmpty
  | c :: cs => startsWithL needle (c :: cs) || containsSub needle cs

/-- The per-record filter of the search comprehension:
`query.lower() in mcq.get("question", "").lower()`. -/
def matchesQuery (query : List Char) (m : MCQRecord) : Bool :=
  containsSub (pyLower query) (pyLower (m.question.getD []))

/-- Embeds the Search button handler: a query that strips to empty is
rejected (`none`: the warning branch, the store is never scanned);
otherwise the comprehension filters the store in order and `[:limit]`
keeps the first at-most-`limit` matches. -/
def searchMCQs (db : List MCQRecord) (query : List Char) (lim : Nat) :
    Option (List MCQRecord) :=
  if pyStrip query = [] then none
  else some ((db.filter (matchesQuery query)).take lim)

/-- The store of Scenario F: five records, the first, third and fifth
containing "Lagos" in some casing. -/
def lagosDb : List MCQRecord :=
  [⟨some ("Where is Lagos located?".toList), none, none⟩,
   ⟨some ("Where is Abuja located?".toList), none, none⟩,
   ⟨some ("Is lagos a big city?".toList), none, none⟩,
   ⟨some ("Where is Kano located?".toList), none, none⟩,
   ⟨some ("LAGOS is in which country?".toList), none, none⟩]

/-- C6: for a non-whitespace query, the search returns the first
at-most-`limit` records of the store, in store order, whose question
contains the query case-insensitively (characterized exactly as the
filtered store truncated to `limit`); a whitespace-only query is rejected
without scanning; and Scenario F holds on `lagosDb`: searching "lagos"
with limit 2 returns exactly the first two of the three matching records,
in store order. -/
theorem searchMCQs_spec (db : List MCQRecord) (query : List Char) (lim : Nat)
    (hq : pyStrip query ≠ []) :
    (∀ res, searchMCQs db query lim = some res →
      res.length ≤ lim
      ∧ res.Sublist db
      ∧ (∀ m ∈ res, matchesQuery query m = true)
      ∧ res = (db.filter (matchesQuery query)).take lim)
    ∧ (∀ q2 : List Char, pyStrip q2 = [] → searchMCQs db q2 lim = none)
    ∧ searchMCQs lagosDb ("lagos".toList) 2 =
        some [lagosDb.get ⟨0, by decide⟩, lagosDb.get ⟨2, by decide⟩] := by
  refine ⟨?_, ?_, by decide⟩
  · intro res hres
    rw [searchMCQs, if_neg hq, Option.some_inj] at hres
    subst hres
    refine ⟨List.length_take_le _ _, ?_, ?_, rfl⟩
    · exact (List.take_sublist _ _).trans (List.filter_sublist _)
    · intro m hm
      have hm2 := (List.take_sublist _ _).subset hm
      exact List.of_mem_filter hm2
  · intro q2 hq2
    rw [searchMCQs, if_pos hq2]

/-- Witness for C6 at Scenario F's store and query. -/
theorem searchMCQs_spec_witness :
    pyStrip ("lagos".toList) ≠ []
    ∧ ((∀ res, searchMCQs lagosDb ("lagos".toList) 2 = some res →
        res.length ≤ 2
        ∧ res.Sublist lagosDb
        ∧ (∀ m ∈ res, matchesQuery ("lagos".toList) m = true)
        ∧ res = (lagosDb.filter (matchesQuery ("lagos".toList))).take 2)
      ∧ (∀ q2 : List Char, pyStrip q2 = [] →
          searchMCQs lagosDb q2 2 = none)
      ∧ searchMCQs lagosDb ("lagos".toList) 2 =
          some [lagosDb.get ⟨0, by decide⟩, lagosDb.get ⟨2, by decide⟩]) :=
  ⟨by decide, searchMCQs_spec lagosDb ("lagos".toList) 2 (by decide)⟩

/-! ## Display and export of records (lines 139-153 and 171-176) -/

/-- Python `chr(n)`: defined for code points `0 ≤ n < 0x110000`, raises
`ValueError` otherwise (`none`).  The resulting code point is returned. -/
def pyChr (n : Int) : Option Int :=
  if 0 ≤ n ∧ n < 1114112 then some n else none

/-- Sequencing of possibly-raising computations in an enumeration loop:
the first `none` (exception) aborts the remainder. -/
def optionList : List (Option Int) → Option (List Int)
  | [] => some []
  | none :: _ => none
  | some c :: rest => (optionList rest).map (fun cs => c :: cs)

/-- The option-label loop: `chr(65 + j)` for each option index `j` of the
enumeration `for j, opt in enumerate(opts)`. -/
def renderOptionLabels (opts : List (List Char)) : Option (List Int) :=
  optionList ((List.range opts.length).map (fun j => pyChr (65 + Int.ofNat j)))

/-- Embeds the rendering of one record (both tabs render the same
shapes): the question text defaulted to "N/A", the option labels
`chr(65 + j)`, and the answer label `chr(65 + mcq.get("correct_option", 0))`.
`none` models an exception escaping the rendering loop. -/
def renderMCQ (m : MCQRecord) : Option (List Char × List Int × Int) :=
  match renderOptionLabels (m.options.getD []),
      pyChr (65 + m.correct_option.getD 0) with
  | some labels, some ans => some (m.question.getD ("N/A".toList), labels, ans)
  | _, _ => none

/-- Embeds `json.dumps` on one record for the download artifact: total —
dumping these dictionaries always succeeds in Python (exact string
escaping is not modelled; keys absent from the record are not emitted). -/
def serializeMCQ (m : MCQRecord) : List Char :=
  let qpart := match m.question with
    | some q => ("\"question\": \"".toList) ++ q ++ ("\", ".toList)
    | none => []
  let opart := match m.options with
    | some opts => ("\"options\": ".toList)
        ++ '[' :: (opts.flatMap (fun o => '"' :: (o ++ ['"', ',']))) ++ ("], ".toList)
    | none => []
  let cpart := match m.correct_option with
    | some c => ("\"correct_option\": ".toList) ++ (toString c).toList
    | none => []
  '\x7b' :: (qpart ++ opart ++ cpart) ++ ['\x7d']

/-- C7 counterexample: a record whose `correct_option` is −100 — out of
range for its four options, and passed through unchanged — makes the
answer-label rendering raise: `chr(65 - 100)` is a `ValueError`, so
display does NOT succeed for every out-of-range record. -/
theorem renderMCQ_out_of_range_counterexample :
    renderMCQ ⟨some ("q".toList),
      some [("a".toList), ("b".toList), ("c".toList), ("d".toList)],
      some (-100)⟩ = none := by decide

lemma optionList_isSome (l : List (Option Int))
    (h : ∀ x ∈ l, ∃ c, x = some c) : ∃ ls, optionList l = some ls := by
  induction l with
  | nil => exact ⟨[], rfl⟩
  | cons x rest ih =>
      obtain ⟨c, rfl⟩ := h x (List.mem_cons_self x rest)
      obtain ⟨ls, hls⟩ := ih (fun y hy => h y (List.mem_cons_of_mem _ hy))
      exact ⟨c :: ls, by rw [optionList, hls]; rfl⟩

lemma renderOptionLabels_isSome (opts : List (List Char))
    (hopts : (opts.length : Int) + 65 ≤ 1114112) :
    ∃ ls, renderOptionLabels opts = some ls := by
  apply optionList_isSome
  intro x hx
  rw [List.mem_map] at hx
  obtain ⟨j, hj, rfl⟩ := hx
  rw [List.mem_range] at hj
  refine ⟨65 + Int.ofNat j, ?_⟩
  rw [pyChr, if_pos]
  have h1 : (0 : Int) ≤ Int.ofNat j := Int.ofNat_nonneg j
  have h2 : Int.ofNat j < (opts.length : Int) := Int.ofNat_lt.mpr hj
  constructor
  · omega
  · omega

/-- C7 amended: the display code substitutes defaults for MISSING fields
("N/A" question, `[]` options, answer index 0) and renders an
out-of-range `correct_option` as-is, succeeding without raising exactly
when the answer code point `65 + correct_option` (default 0) lies in
`chr`'s domain `[0, 0x110000)` — far out-of-range values such as −100
raise (see the counterexample) — and export serialization is total: it
always succeeds and is never empty. -/
theorem renderMCQ_tolerates_in_chr_range (m : MCQRecord)
    (hlo : 0 ≤ 65 + m.correct_option.getD 0)
    (hhi : 65 + m.correct_option.getD 0 < 1114112)
    (hopts : ((m.options.getD []).length : Int) + 65 ≤ 1114112) :
    (renderMCQ m).isSome = true ∧ serializeMCQ m ≠ [] := by
  constructor
  · obtain ⟨ls, hls⟩ := renderOptionLabels_isSome (m.options.getD []) hopts
    have hans : pyChr (65 + m.correct_option.getD 0) =
        some (65 + m.correct_option.getD 0) := by
      rw [pyChr, if_pos ⟨hlo, hhi⟩]
    rw [renderMCQ, hls, hans]
    rfl
  · rw [serializeMCQ]
    simp

/-- Witness for C7 at a record whose `correct_option` (10) is out of range
for its four options: rendering succeeds (with a wrong letter, not an
exception) and serialization is non-empty. -/
theorem renderMCQ_tolerates_witness :
    (0 ≤ 65 + (some (10 : Int)).getD 0
      ∧ 65 + (some (10 : Int)).getD 0 < 1114112
      ∧ (((some [("a".toList), ("b".toList), ("c".toList), ("d".toList)]).getD
            ([] : List (List Char))).length : Int) + 65 ≤ 1114112)
    ∧ ((renderMCQ ⟨some ("q".toList),
          some [("a".toList), ("b".toList), ("c".toList), ("d".toList)],
          some 10⟩).isSome = true
      ∧ serializeMCQ ⟨some ("q".toList),
          some [("a".toList), ("b".toList), ("c".toList), ("d".toList)],
          some 10⟩ ≠ []) :=
  ⟨⟨by decide, by decide, by decide⟩,
    renderMCQ_tolerates_in_chr_range
      ⟨some ("q".toList),
        some [("a".toList), ("b".toList), ("c".toList), ("d".toList)],
        some 10⟩ (by decide) (by decide) (by decide)⟩

/-! ## Text extraction and document close (lines 114-118) -/

/-- Page-wise text extraction,
`"".join(pdf_doc[i].get_text("text") for i in selected_pages)`, with the
per-page extractor `getText` as a black box that may raise. -/
def extractPagesText (getText : Nat → Except (List Char) (List Char)) :
    List Nat → Except (List Char) (List Char)
  | [] => Except.ok []
  | p :: ps =>
      match getText p with
      | Except.error e => Except.error e
      | Except.ok t =>
          match extractPagesText getText ps with
          | Except.error e => Except.error e
          | Except.ok rest => Except.ok (t ++ rest)

/-- Embeds lines 117-118: the join runs and then `pdf_doc.close()` is the
next straight-line statement — there is no try/finally, so an exception
raised during extraction propagates before the close call is reached.
The boolean records whether `close()` executed on that path. -/
def extractAndClose (getText : Nat → Except (List Char) (List Char))
    (pages : List Nat) : Except (List Char) (List Char) × Bool :=
  match extractPagesText getText pages with
  | Except.ok t => (Except.ok t, true)
  | Except.error e => (Except.error e, false)

/-- C8: the claim fails on the code — when extraction of a selected page
raises, the document handle is NOT closed (the error exits before line
118), while on the success path it is closed.  The spec's requirement of
close on every exit path would need a try/finally that the source lacks. -/
theorem extractAndClose_close_behaviour :
    extractAndClose (fun _ => Except.error ("boom".toList)) [0] =
      (Except.error ("boom".toList), false)
    ∧ extractAndClose (fun _ => Except.ok ("t".toList)) [0] =
      (Except.ok ("t".toList), true) :=
  ⟨rfl, rfl⟩
